import Mathlib

/-! The SQLite storage backend of url-shortener.

A shallow embedding of `internal/storage/sqlite/sqlite.go`.  The Go methods
talk to one table,

    CREATE TABLE IF NOT EXISTS url(
        id INTEGER PRIMARY KEY,
        alias TEXT NOT NULL UNIQUE,
        url TEXT NOT NULL);

through four parameterised statements.  The table is a list of rows, each
statement is a function on that list, and each Go function is written with
the same branches, in the same order, as its source.  A `*sql.DB` handle is
passed explicitly: a method that writes returns the new `Storage`.

Errors that do not depend on the stored data (a closed handle, an I/O
failure, a full disk) are inputs of each call, collected in `Faults`.
-/

namespace sqlite

/-! ## Errors -/

/-- An error value handed back by `database/sql` or the driver: either a
`sqlite3.Error` with its result codes, or any other error. -/
inductive DriverError where
  | sqlite3Error (Code ExtendedCode : Nat) (text : String)
  | other (text : String)
deriving DecidableEq, Repr

/-- The extended result code `sqlite3.ErrConstraintUnique`
(`SQLITE_CONSTRAINT | 8 << 8`). -/
def ErrConstraintUnique : Nat := 2067

/-- The primary result code `SQLITE_CONSTRAINT`. -/
def ErrConstraint : Nat := 19

/-- Go error values seen by callers of the package.  `ErrURLNotFound` and
`ErrURLExists` are the two sentinels of package `storage`, `ErrNoRows` is
`sql.ErrNoRows`, and `Errorf text err` is `fmt.Errorf` applied to a format
that ends in `%w`, where `text` is what the format renders before `%w`. -/
inductive GoError where
  | ErrURLNotFound
  | ErrURLExists
  | ErrNoRows
  | driver (err : DriverError)
  | Errorf (text : String) (err : GoError)
deriving DecidableEq, Repr

/-- Message texts of the two sentinels of package `storage`.  That package
is outside `sqlite.go`, so the texts are parameters of everything that
renders a message. -/
structure SentinelText where
  ErrURLNotFound : String
  ErrURLExists : String
deriving Repr

/-- The `Error()` method of a driver error. -/
def DriverError.Error : DriverError → String
  | .sqlite3Error _ _ text => text
  | .other text => text

/-- The `Error()` method: the message of an error value. -/
def GoError.Error (m : SentinelText) : GoError → String
  | .ErrURLNotFound => m.ErrURLNotFound
  | .ErrURLExists => m.ErrURLExists
  | .ErrNoRows => "sql: no rows in result set"
  | .driver err => err.Error
  | .Errorf text err => text ++ GoError.Error m err

/-- Go `errors.Is err target`: `target` is `err` or is reached from it by
unwrapping. -/
def GoError.Is (err target : GoError) : Bool :=
  err == target ||
    match err with
    | .Errorf _ inner => GoError.Is inner target
    | _ => false

/-- Go `strings.HasPrefix s p` on the characters of the two strings. -/
def HasPrefix (s p : String) : Bool := p.data.isPrefixOf s.data

/-! ## The table and the statements -/

/-- One row of table `url`.  Column `alias` is the field `alias_`. -/
structure Row where
  id : Int
  alias_ : String
  url : String
deriving DecidableEq, Repr

/-- The `*sql.DB` handle of one store: the rows of table `url`, oldest
insertion first. -/
structure Storage where
  db : List Row
deriving DecidableEq, Repr

/-- The largest rowid in use, `none` for an empty table. -/
def largestRowid : List Row → Option Int
  | [] => none
  | r :: rs =>
    match largestRowid rs with
    | none => some r.id
    | some m => some (max r.id m)

/-- The rowid SQLite gives a row inserted without an explicit `id` into a
table declared `INTEGER PRIMARY KEY` without `AUTOINCREMENT`: 1 for an empty
table, otherwise one more than the largest rowid in use.  (The engine leaves
this rule only when the largest rowid is 2^63 - 1, which takes 2^63 - 1
inserts to reach; a failure of that kind is one of the `Faults`.) -/
def newRowid (t : List Row) : Int :=
  match largestRowid t with
  | none => 1
  | some m => m + 1

/-- The statement `INSERT INTO url(url, alias) VALUES(?, ?)`.  The `UNIQUE`
constraint on `alias` rejects the row when some row already has that alias;
otherwise the row is stored under a new rowid, which is also the statement's
last insert id.  Go strings are never NULL, so `NOT NULL` always holds. -/
def execInsert (t : List Row) (url alias_ : String) : Except DriverError (List Row × Int) :=
  if t.any (fun r => r.alias_ == alias_) then
    .error (.sqlite3Error ErrConstraint ErrConstraintUnique "UNIQUE constraint failed: url.alias")
  else
    .ok (t ++ [⟨newRowid t, alias_, url⟩], newRowid t)

/-- The statement `SELECT url from url WHERE alias = ?` read through
`QueryRow(...).Scan`: the url of the first matching row, `none` when no row
matches (`sql.ErrNoRows`). -/
def querySelect (t : List Row) (alias_ : String) : Option String :=
  (t.find? (fun r => r.alias_ == alias_)).map Row.url

/-- The statement `DELETE FROM url WHERE alias = ?`: the remaining rows and
the number of rows affected. -/
def execDelete (t : List Row) (alias_ : String) : List Row × Nat :=
  (t.filter (fun r => !(r.alias_ == alias_)), t.countP (fun r => r.alias_ == alias_))

/-! ## Failures that do not depend on the data -/

/-- What goes wrong in one call for reasons outside the table: the error, if
any, of `sql.Open`, of `Prepare`, of `Exec` or `QueryRow(...).Scan`, and of
`LastInsertId` or `RowsAffected`.  A failing `Exec` leaves the table as it
was. -/
structure Faults where
  sqlOpen : Option DriverError
  prepare : Option DriverError
  exec : Option DriverError
  result : Option DriverError
deriving DecidableEq, Repr

/-- A call in which the engine and the driver work. -/
def healthy : Faults := ⟨none, none, none, none⟩

/-! ## The Go functions -/

/-- `New(storagePath)`.  `file` is what the database at `storagePath` holds
before the call: `none` when table `url` does not exist yet.  The handle is
returned on success, the error otherwise.  (`Prepare` compiles the first
statement of its text, the `CREATE TABLE IF NOT EXISTS`.) -/
def New (file : Option (List Row)) (f : Faults) : Option Storage × Option GoError :=
  let operation := "storage.sqlite.New"
  match f.sqlOpen with
  | some err => (none, some (.Errorf (operation ++ ": ") (.driver err)))
  | none =>
    match f.prepare with
    | some err => (none, some (.Errorf (operation ++ ": ") (.driver err)))
    | none =>
      match f.exec with
      | some err => (none, some (.Errorf (operation ++ ": ") (.driver err)))
      | none => (some ⟨file.getD []⟩, none)

/-- The test `err.(sqlite3.Error)` with
`sqliteErr.ExtendedCode == sqlite3.ErrConstraintUnique`. -/
def isConstraintUnique : DriverError → Bool
  | .sqlite3Error _ ExtendedCode _ => ExtendedCode == ErrConstraintUnique
  | .other _ => false

/-- `(s *Storage) SaveURL(urlToSave, alias)`: the store after the call, the
id and the error. -/
def SaveURL (s : Storage) (urlToSave alias_ : String) (f : Faults) :
    Storage × Int × Option GoError :=
  let operation := "storage.sqlite.SaveURL"
  match f.prepare with
  | some err => (s, 0, some (.Errorf (operation ++ ": ") (.driver err)))
  | none =>
    let res : Except DriverError (List Row × Int) :=
      match f.exec with
      | some err => .error err
      | none => execInsert s.db urlToSave alias_
    match res with
    | .error err =>
      if isConstraintUnique err then
        (s, 0, some (.Errorf (operation ++ ": ") .ErrURLExists))
      else
        (s, 0, some (.Errorf (operation ++ ": ") (.driver err)))
    | .ok (db, lastInsertId) =>
      match f.result with
      | some err =>
        (⟨db⟩, 0, some (.Errorf (operation ++ ": failed to get last insert id: ") (.driver err)))
      | none => (⟨db⟩, lastInsertId, none)

/-- `(s *Storage) GetURL(alias)`: the url and the error.  The statement
reads only, so the store is the same after the call. -/
def GetURL (s : Storage) (alias_ : String) (f : Faults) : String × Option GoError :=
  let operation := "storage.sqlite.GetURL"
  match f.prepare with
  | some err => ("", some (.Errorf (operation ++ ": prepare statement: ") (.driver err)))
  | none =>
    let scan : Except GoError String :=
      match f.exec with
      | some err => .error (.driver err)
      | none =>
        match querySelect s.db alias_ with
        | none => .error .ErrNoRows
        | some resUrl => .ok resUrl
    match scan with
    | .error err =>
      if err.Is .ErrNoRows then
        ("", some .ErrURLNotFound)
      else
        ("", some (.Errorf (operation ++ ": execute statement ") err))
    | .ok resUrl => (resUrl, none)

/-- `(s *Storage) DeleteURL(alias)`: the store after the call and the
error. -/
def DeleteURL (s : Storage) (alias_ : String) (f : Faults) : Storage × Option GoError :=
  let operation := "storage.sqlite.DeleteURL"
  match f.prepare with
  | some err => (s, some (.Errorf (operation ++ ": prepare statement: ") (.driver err)))
  | none =>
    match f.exec with
    | some err => (s, some (.Errorf (operation ++ ": failed to delete url: ") (.driver err)))
    | none =>
      let (db, rowsAffected) := execDelete s.db alias_
      match f.result with
      | some err =>
        (⟨db⟩, some (.Errorf (operation ++ ": failed to get rows affected: ") (.driver err)))
      | none =>
        if rowsAffected == 0 then
          (⟨db⟩, some .ErrURLNotFound)
        else
          (⟨db⟩, none)

/-! ## Sequences of calls -/

/-- One call on a store, with what goes wrong in it. -/
inductive Call where
  | SaveURL (urlToSave alias_ : String) (f : Faults)
  | GetURL (alias_ : String) (f : Faults)
  | DeleteURL (alias_ : String) (f : Faults)
deriving DecidableEq, Repr

/-- What one call returned. -/
inductive Reply where
  | SaveURL (id : Int) (err : Option GoError)
  | GetURL (url : String) (err : Option GoError)
  | DeleteURL (err : Option GoError)
deriving DecidableEq, Repr

/-- One call: the store after it and what it returned. -/
def step (s : Storage) : Call → Storage × Reply
  | .SaveURL urlToSave alias_ f =>
    let out := SaveURL s urlToSave alias_ f
    (out.1, .SaveURL out.2.1 out.2.2)
  | .GetURL alias_ f =>
    let out := GetURL s alias_ f
    (s, .GetURL out.1 out.2)
  | .DeleteURL alias_ f =>
    let out := DeleteURL s alias_ f
    (out.1, .DeleteURL out.2)

/-- The calls one after the other: the last store and the replies in
order. -/
def run (s : Storage) : List Call → Storage × List Reply
  | [] => (s, [])
  | c :: cs =>
    let out := step s c
    let rest := run out.1 cs
    (rest.1, out.2 :: rest.2)

/-- The ids returned by the successful `SaveURL` calls, in order. -/
def savedIds : List Reply → List Int
  | [] => []
  | .SaveURL id none :: rs => id :: savedIds rs
  | _ :: rs => savedIds rs

/-- Whether a call is a `DeleteURL`. -/
def Call.isDelete : Call → Bool
  | .DeleteURL _ _ => true
  | _ => false

/-- No call of the sequence removes a row: after each call every row that
was stored before it is still stored. -/
def keepsRows (s : Storage) : List Call → Bool
  | [] => true
  | c :: cs =>
    s.db.all (fun r => (step s c).1.db.contains r) && keepsRows (step s c).1 cs

/-- No two rows have the same alias. -/
def aliasUnique (t : List Row) : Prop := (t.map Row.alias_).Nodup

instance (t : List Row) : Decidable (aliasUnique t) := by
  unfold aliasUnique; infer_instance

/-! ## The statements, one at a time -/

theorem any_alias_eq_false {t : List Row} {a : String} :
    t.any (fun r => r.alias_ == a) = false ↔ ∀ r ∈ t, r.alias_ ≠ a := by
  simp [List.any_eq_false]

theorem any_alias_eq_true {t : List Row} {a : String} :
    t.any (fun r => r.alias_ == a) = true ↔ ∃ r ∈ t, r.alias_ = a := by
  simp [List.any_eq_true]

theorem querySelect_absent {t : List Row} {a : String} (h : ∀ r ∈ t, r.alias_ ≠ a) :
    querySelect t a = none := by
  unfold querySelect
  rw [Option.map_eq_none', List.find?_eq_none]
  intro r hr
  simpa using h r hr

theorem querySelect_present {t : List Row} {a : String} (h : ∃ r ∈ t, r.alias_ = a) :
    ∃ r ∈ t, r.alias_ = a ∧ querySelect t a = some r.url := by
  unfold querySelect
  induction t with
  | nil => simp at h
  | cons x xs ih =>
    by_cases hx : x.alias_ = a
    · exact ⟨x, List.mem_cons_self _ _, hx, by simp [List.find?, hx]⟩
    · have h1 : ∃ r ∈ xs, r.alias_ = a := by
        obtain ⟨r, hr, hra⟩ := h
        rcases List.mem_cons.1 hr with rfl | hr1
        · exact absurd hra hx
        · exact ⟨r, hr1, hra⟩
      obtain ⟨r, hr, hra, hq⟩ := ih h1
      refine ⟨r, List.mem_cons_of_mem _ hr, hra, ?_⟩
      rw [List.find?_cons_of_neg _ (by simpa using hx)]
      exact hq

theorem querySelect_append_new {t : List Row} {a u : String} {i : Int}
    (h : ∀ r ∈ t, r.alias_ ≠ a) : querySelect (t ++ [⟨i, a, u⟩]) a = some u := by
  unfold querySelect
  have h0 : t.find? (fun r => r.alias_ == a) = none := by
    rw [List.find?_eq_none]; intro r hr; simpa using h r hr
  simp [List.find?_append, h0]

theorem querySelect_append_other {t : List Row} {a b u : String} {i : Int} (hb : b ≠ a) :
    querySelect (t ++ [⟨i, a, u⟩]) b = querySelect t b := by
  unfold querySelect
  have hab : ¬ a = b := fun h => hb h.symm
  cases h0 : t.find? (fun r => r.alias_ == b) <;> simp [List.find?_append, h0, hab]

theorem querySelect_filter_other {t : List Row} {a b : String} (hb : b ≠ a) :
    querySelect (t.filter (fun r => !(r.alias_ == a))) b = querySelect t b := by
  unfold querySelect
  induction t with
  | nil => rfl
  | cons x xs ih =>
    by_cases hxa : x.alias_ = a
    · have hxb : ¬ x.alias_ = b := fun h => hb (h.symm.trans hxa)
      rw [List.filter_cons_of_neg (by simpa using hxa),
        List.find?_cons_of_neg _ (by simpa using hxb)]
      exact ih
    · rw [List.filter_cons_of_pos (by simpa using hxa)]
      by_cases hxb : x.alias_ = b
      · rw [List.find?_cons_of_pos _ (by simpa using hxb),
          List.find?_cons_of_pos _ (by simpa using hxb)]
      · rw [List.find?_cons_of_neg _ (by simpa using hxb),
          List.find?_cons_of_neg _ (by simpa using hxb)]
        exact ih

theorem countP_alias_eq_zero {t : List Row} {a : String} :
    t.countP (fun r => r.alias_ == a) = 0 ↔ ∀ r ∈ t, r.alias_ ≠ a := by
  simp [List.countP_eq_zero]

theorem filter_absent {t : List Row} {a : String} (h : ∀ r ∈ t, r.alias_ ≠ a) :
    t.filter (fun r => !(r.alias_ == a)) = t := by
  rw [List.filter_eq_self]
  intro r hr
  simpa using h r hr

/-! ## What a successful call did -/

theorem execInsert_absent {t : List Row} {u a : String} (h : ∀ r ∈ t, r.alias_ ≠ a) :
    execInsert t u a = .ok (t ++ [⟨newRowid t, a, u⟩], newRowid t) := by
  unfold execInsert
  rw [any_alias_eq_false.2 h]
  rfl

theorem execInsert_present {t : List Row} {u a : String} (h : ∃ r ∈ t, r.alias_ = a) :
    execInsert t u a =
      .error (.sqlite3Error ErrConstraint ErrConstraintUnique
        "UNIQUE constraint failed: url.alias") := by
  unfold execInsert
  rw [any_alias_eq_true.2 h]
  rfl

/-- A `SaveURL` that returns no error met no fault, found the alias unused and
appended one row under the new rowid, which it returned. -/
theorem SaveURL_ok {s s1 : Storage} {u a : String} {f : Faults} {i : Int}
    (h : SaveURL s u a f = (s1, i, none)) :
    (∀ r ∈ s.db, r.alias_ ≠ a) ∧ i = newRowid s.db ∧ s1 = ⟨s.db ++ [⟨i, a, u⟩]⟩ := by
  unfold SaveURL at h
  cases hp : f.prepare with
  | some e => simp [hp] at h
  | none =>
    cases he : f.exec with
    | some e =>
      simp only [hp, he] at h
      split at h <;> simp at h
    | none =>
      by_cases hany : ∃ r ∈ s.db, r.alias_ = a
      · simp only [hp, he, execInsert_present hany] at h
        split at h <;> simp at h
      · have habs : ∀ r ∈ s.db, r.alias_ ≠ a := fun r hr hra => hany ⟨r, hr, hra⟩
        simp only [hp, he, execInsert_absent habs] at h
        cases hr : f.result with
        | some e => simp [hr] at h
        | none =>
          simp only [hr, Prod.mk.injEq, and_true] at h
          obtain ⟨h1, h2⟩ := h
          subst h2
          exact ⟨habs, rfl, h1.symm⟩

/-- A `SaveURL` on a store where the alias is unused, in a call with no
fault, returns no error. -/
theorem SaveURL_healthy_absent {s : Storage} {u a : String} (h : ∀ r ∈ s.db, r.alias_ ≠ a) :
    SaveURL s u a healthy = (⟨s.db ++ [⟨newRowid s.db, a, u⟩]⟩, newRowid s.db, none) := by
  unfold SaveURL
  simp only [healthy, execInsert_absent h]

/-- Whatever a `SaveURL` returns, the table afterwards is the table before
or the table before with one row of an unused alias at the end. -/
theorem SaveURL_db (s : Storage) (u a : String) (f : Faults) :
    (SaveURL s u a f).1 = s ∨
      ((∀ r ∈ s.db, r.alias_ ≠ a) ∧
        (SaveURL s u a f).1 = ⟨s.db ++ [⟨newRowid s.db, a, u⟩]⟩) := by
  unfold SaveURL
  cases hp : f.prepare with
  | some e => simp
  | none =>
    cases he : f.exec with
    | some e =>
      left
      simp only
      split <;> rfl
    | none =>
      by_cases hany : ∃ r ∈ s.db, r.alias_ = a
      · left
        simp only [execInsert_present hany]
        split <;> rfl
      · have habs : ∀ r ∈ s.db, r.alias_ ≠ a := fun r hr hra => hany ⟨r, hr, hra⟩
        right
        refine ⟨habs, ?_⟩
        simp only [execInsert_absent habs]
        cases f.result <;> rfl

/-- A `DeleteURL` that returns no error met no fault, found a row with the
alias and left the rows of every other alias. -/
theorem DeleteURL_ok {s s1 : Storage} {a : String} {f : Faults}
    (h : DeleteURL s a f = (s1, none)) :
    (∃ r ∈ s.db, r.alias_ = a) ∧ s1 = ⟨s.db.filter (fun r => !(r.alias_ == a))⟩ := by
  unfold DeleteURL execDelete at h
  cases hp : f.prepare with
  | some e => simp [hp] at h
  | none =>
    cases he : f.exec with
    | some e => simp [hp, he] at h
    | none =>
      cases hr : f.result with
      | some e => simp [hp, he, hr] at h
      | none =>
        simp only [hp, he, hr] at h
        by_cases hc : s.db.countP (fun r => r.alias_ == a) = 0
        · simp [hc] at h
        · simp only [beq_iff_eq, hc, if_false, Prod.mk.injEq, and_true] at h
          refine ⟨?_, h.symm⟩
          by_contra hno
          exact hc (countP_alias_eq_zero.2 fun r hr hra => hno ⟨r, hr, hra⟩)

/-- Whatever a `DeleteURL` returns, the table afterwards is the table before
or the table before without the rows of that alias. -/
theorem DeleteURL_db (s : Storage) (a : String) (f : Faults) :
    (DeleteURL s a f).1 = s ∨
      (DeleteURL s a f).1 = ⟨s.db.filter (fun r => !(r.alias_ == a))⟩ := by
  unfold DeleteURL execDelete
  cases f.prepare with
  | some e => left; rfl
  | none =>
    cases f.exec with
    | some e => left; rfl
    | none =>
      right
      cases f.result with
      | some e => rfl
      | none =>
        simp only
        split <;> rfl

/-- A `GetURL` in a call with no fault on a store without the alias. -/
theorem GetURL_healthy_absent {s : Storage} {a : String} (h : ∀ r ∈ s.db, r.alias_ ≠ a) :
    GetURL s a healthy = ("", some .ErrURLNotFound) := by
  unfold GetURL
  simp only [healthy, querySelect_absent h]
  rfl

/-- A `GetURL` depends on the table only through the row the query finds. -/
theorem GetURL_congr {s s1 : Storage} {a : String} (f : Faults)
    (h : querySelect s1.db a = querySelect s.db a) : GetURL s1 a f = GetURL s a f := by
  unfold GetURL
  rw [h]

theorem filter_eq_erase {t : List Row} {r : Row} (hu : aliasUnique t) (hr : r ∈ t) :
    t.filter (fun x => !(x.alias_ == r.alias_)) = t.erase r := by
  unfold aliasUnique at hu
  induction t with
  | nil => simp at hr
  | cons x xs ih =>
    rw [List.map_cons, List.nodup_cons] at hu
    by_cases hx : x = r
    · subst hx
      rw [List.filter_cons_of_neg (by simp), List.erase_cons_head]
      apply filter_absent
      intro y hy hya
      exact hu.1 (hya ▸ List.mem_map_of_mem Row.alias_ hy)
    · have hr1 : r ∈ xs := by
        rcases List.mem_cons.1 hr with h | h
        · exact absurd h.symm hx
        · exact h
      have hxa : x.alias_ ≠ r.alias_ := fun h =>
        hu.1 (h ▸ List.mem_map_of_mem Row.alias_ hr1)
      rw [List.filter_cons_of_pos (by simpa using hxa), List.erase_cons_tail (by simpa using hx),
        ih hu.2 hr1]

/-! ## The claims on single calls -/

/-- C1: for every store, url and alias for which `SaveURL(url, alias)`
returns no error, a `GetURL(alias)` run right afterwards on the resulting
store (in a call with no fault) returns exactly that url and no error. -/
theorem C1_save_then_get (s s1 : Storage) (u a : String) (f : Faults) (i : Int)
    (h : SaveURL s u a f = (s1, i, none)) : GetURL s1 a healthy = (u, none) := by
  obtain ⟨habs, _, hs1⟩ := SaveURL_ok h
  subst hs1
  unfold GetURL
  simp only [healthy, querySelect_append_new habs]

theorem C1_save_then_get_witness :
    SaveURL ⟨[]⟩ "https://example.com" "ex1" healthy
        = (⟨[⟨1, "ex1", "https://example.com"⟩]⟩, 1, none) ∧
      GetURL ⟨[⟨1, "ex1", "https://example.com"⟩]⟩ "ex1" healthy
        = ("https://example.com", none) :=
  ⟨by decide, C1_save_then_get ⟨[]⟩ _ "https://example.com" "ex1" healthy 1 (by decide)⟩

/-- C2: on every store that holds a record with alias `a`, `SaveURL(u, a)`
in a call with no fault returns id 0 and an error that wraps
`storage.ErrURLExists`; whatever the faults, it returns id 0 and an error and
leaves the store as it was; and `GetURL(a)` afterwards returns the url of a
record stored under `a` before the call, as it did before. -/
theorem C2_save_existing_alias (s : Storage) (u a : String)
    (h : ∃ r ∈ s.db, r.alias_ = a) :
    (∃ err, SaveURL s u a healthy = (s, 0, some err) ∧ err.Is .ErrURLExists = true) ∧
      (∀ f, (SaveURL s u a f).1 = s ∧ (SaveURL s u a f).2.1 = 0 ∧
        (SaveURL s u a f).2.2 ≠ none) ∧
      ∃ r ∈ s.db, r.alias_ = a ∧ GetURL s a healthy = (r.url, none) ∧
        GetURL (SaveURL s u a healthy).1 a healthy = (r.url, none) := by
  have hall : ∀ f, (SaveURL s u a f).1 = s ∧ (SaveURL s u a f).2.1 = 0 ∧
      (SaveURL s u a f).2.2 ≠ none := by
    intro f
    unfold SaveURL
    cases f.prepare with
    | some e => simp
    | none =>
      cases f.exec with
      | some e =>
        simp only
        split <;> simp
      | none =>
        simp only [execInsert_present h]
        split <;> simp
  refine ⟨⟨.Errorf ("storage.sqlite.SaveURL" ++ ": ") .ErrURLExists, ?_, by decide⟩, hall, ?_⟩
  · unfold SaveURL
    simp only [healthy, execInsert_present h]
    rfl
  · obtain ⟨r, hr, hra, hq⟩ := querySelect_present h
    have hg : GetURL s a healthy = (r.url, none) := by
      unfold GetURL
      simp only [healthy, hq]
    refine ⟨r, hr, hra, hg, ?_⟩
    rw [(hall healthy).1]
    exact hg

theorem C2_save_existing_alias_witness :
    (∃ r ∈ (⟨[⟨1, "ex1", "https://example.com"⟩]⟩ : Storage).db, r.alias_ = "ex1") ∧
      GetURL (SaveURL ⟨[⟨1, "ex1", "https://example.com"⟩]⟩ "https://other.com" "ex1"
        healthy).1 "ex1" healthy = ("https://example.com", none) := by
  have hex : ∃ r ∈ (⟨[⟨1, "ex1", "https://example.com"⟩]⟩ : Storage).db, r.alias_ = "ex1" :=
    ⟨⟨1, "ex1", "https://example.com"⟩, by simp, rfl⟩
  refine ⟨hex, ?_⟩
  obtain ⟨_, hall, _⟩ :=
    C2_save_existing_alias ⟨[⟨1, "ex1", "https://example.com"⟩]⟩ "https://other.com" "ex1" hex
  rw [(hall healthy).1]
  decide

/-- C3: on every store with no record of alias `a`, `GetURL(a)` in a call
with no fault returns the empty string together with
`storage.ErrURLNotFound`; when a record of alias `a` exists, no `GetURL(a)`,
whatever the faults, returns `storage.ErrURLNotFound` or an error wrapping it,
and in a call with no fault it returns the url of such a record. -/
theorem C3_get_not_found (s : Storage) (a : String) :
    ((∀ r ∈ s.db, r.alias_ ≠ a) → GetURL s a healthy = ("", some .ErrURLNotFound)) ∧
      ((∃ r ∈ s.db, r.alias_ = a) →
        (∀ f err, (GetURL s a f).2 = some err → err.Is .ErrURLNotFound = false) ∧
          ∃ r ∈ s.db, r.alias_ = a ∧ GetURL s a healthy = (r.url, none)) := by
  refine ⟨GetURL_healthy_absent, fun h => ?_⟩
  obtain ⟨r, hr, hra, hq⟩ := querySelect_present h
  refine ⟨?_, r, hr, hra, ?_⟩
  · intro f err herr
    unfold GetURL at herr
    cases hp : f.prepare with
    | some e =>
      simp only [hp, Option.some.injEq] at herr
      subst herr
      cases e <;> rfl
    | none =>
      cases he : f.exec with
      | some e =>
        have hno : (GoError.driver e).Is .ErrNoRows = false := by cases e <;> rfl
        simp only [hp, he, hno, Bool.false_eq_true, if_false, Option.some.injEq] at herr
        subst herr
        cases e <;> rfl
      | none => simp [hp, he, hq] at herr
  · unfold GetURL
    simp only [healthy, hq]

theorem C3_get_not_found_witness :
    GetURL ⟨[]⟩ "ex1" healthy = ("", some .ErrURLNotFound) ∧
      GetURL ⟨[⟨1, "ex1", "https://example.com"⟩]⟩ "ex1" healthy
        = ("https://example.com", none) :=
  ⟨(C3_get_not_found ⟨[]⟩ "ex1").1 (by simp), by decide⟩

/-- C4: on every store with no record of alias `a`, `DeleteURL(a)` in a call
with no fault returns `storage.ErrURLNotFound`, and whatever the faults the
store after the call is the store before it. -/
theorem C4_delete_not_found (s : Storage) (a : String) (h : ∀ r ∈ s.db, r.alias_ ≠ a) :
    DeleteURL s a healthy = (s, some .ErrURLNotFound) ∧ ∀ f, (DeleteURL s a f).1 = s := by
  constructor
  · unfold DeleteURL execDelete
    simp only [healthy, filter_absent h, countP_alias_eq_zero.2 h]
    rfl
  · intro f
    rcases DeleteURL_db s a f with h1 | h1
    · exact h1
    · rw [h1, filter_absent h]

theorem C4_delete_not_found_witness :
    (∀ r ∈ (⟨[⟨1, "ex1", "https://example.com"⟩]⟩ : Storage).db, r.alias_ ≠ "ex2") ∧
      DeleteURL ⟨[⟨1, "ex1", "https://example.com"⟩]⟩ "ex2" healthy
        = (⟨[⟨1, "ex1", "https://example.com"⟩]⟩, some .ErrURLNotFound) :=
  ⟨by decide, (C4_delete_not_found ⟨[⟨1, "ex1", "https://example.com"⟩]⟩ "ex2" (by decide)).1⟩

/-- C5: for every store and alias `a` for which `DeleteURL(a)` returns no
error, a `GetURL(a)` run right afterwards on the resulting store (in a call
with no fault) returns `storage.ErrURLNotFound`. -/
theorem C5_delete_then_get (s s1 : Storage) (a : String) (f : Faults)
    (h : DeleteURL s a f = (s1, none)) : GetURL s1 a healthy = ("", some .ErrURLNotFound) := by
  obtain ⟨_, hs1⟩ := DeleteURL_ok h
  subst hs1
  apply GetURL_healthy_absent
  intro r hr
  simpa using (List.mem_filter.1 hr).2

theorem C5_delete_then_get_witness :
    DeleteURL ⟨[⟨1, "ex1", "https://example.com"⟩]⟩ "ex1" healthy = (⟨[]⟩, none) ∧
      GetURL ⟨[]⟩ "ex1" healthy = ("", some .ErrURLNotFound) :=
  ⟨by decide, C5_delete_then_get ⟨[⟨1, "ex1", "https://example.com"⟩]⟩ ⟨[]⟩ "ex1" healthy
    (by decide)⟩

theorem newRowid_gt {t : List Row} : ∀ r ∈ t, r.id < newRowid t := by
  have key : ∀ t : List Row, ∀ r ∈ t, ∃ m, largestRowid t = some m ∧ r.id ≤ m := by
    intro t
    induction t with
    | nil => intro r hr; simp at hr
    | cons x xs ih =>
      intro r hr
      unfold largestRowid
      cases hl : largestRowid xs with
      | none =>
        rcases List.mem_cons.1 hr with rfl | h
        · exact ⟨r.id, rfl, le_refl _⟩
        · obtain ⟨m, hm, _⟩ := ih r h
          rw [hl] at hm
          cases hm
      | some m =>
        refine ⟨max x.id m, rfl, ?_⟩
        rcases List.mem_cons.1 hr with rfl | h
        · exact le_max_left _ _
        · obtain ⟨m1, hm1, hle⟩ := ih r h
          rw [hl] at hm1
          cases hm1
          exact le_trans hle (le_max_right _ _)
  intro r hr
  obtain ⟨m, hm, hle⟩ := key t r hr
  unfold newRowid
  rw [hm]
  show r.id < m + 1
  omega

/-- C9: for every store with unique aliases and every alias `a` for which
`DeleteURL(a)` returns no error, the resulting table is the prior table
without one record, the record of alias `a`: it is one record shorter, every
record of another alias is still there with the same id and url, nothing is
added, and `GetURL(b)` for every `b ≠ a` returns what it returned before. -/
theorem C9_delete_frame (s s1 : Storage) (a : String) (f : Faults)
    (hu : aliasUnique s.db) (h : DeleteURL s a f = (s1, none)) :
    ∃ r ∈ s.db, r.alias_ = a ∧ s1.db = s.db.erase r ∧ r ∉ s1.db ∧
      s1.db.length + 1 = s.db.length ∧
      (∀ x ∈ s.db, x.alias_ ≠ a → x ∈ s1.db) ∧ (∀ x ∈ s1.db, x ∈ s.db) ∧
      ∀ b, b ≠ a → ∀ g, GetURL s1 b g = GetURL s b g := by
  obtain ⟨⟨r, hr, hra⟩, hs1⟩ := DeleteURL_ok h
  subst hs1
  subst hra
  refine ⟨r, hr, rfl, filter_eq_erase hu hr, ?_, ?_, ?_, ?_, ?_⟩
  · intro hmem
    simpa using (List.mem_filter.1 hmem).2
  · simp only
    rw [filter_eq_erase hu hr, List.length_erase_of_mem hr]
    have := List.length_pos_of_mem hr
    omega
  · intro x hx hxa
    exact List.mem_filter.2 ⟨hx, by simpa using hxa⟩
  · intro x hx
    exact (List.mem_filter.1 hx).1
  · intro b hb g
    exact GetURL_congr g (querySelect_filter_other hb)

theorem C9_delete_frame_witness :
    aliasUnique [⟨1, "ex1", "https://example.com"⟩, ⟨2, "ex2", "https://other.com"⟩] ∧
      DeleteURL ⟨[⟨1, "ex1", "https://example.com"⟩, ⟨2, "ex2", "https://other.com"⟩]⟩ "ex1"
        healthy = (⟨[⟨2, "ex2", "https://other.com"⟩]⟩, none) ∧
      ∃ r ∈ [(⟨1, "ex1", "https://example.com"⟩ : Row), ⟨2, "ex2", "https://other.com"⟩],
        r.alias_ = "ex1" ∧
        [(⟨2, "ex2", "https://other.com"⟩ : Row)] =
          [(⟨1, "ex1", "https://example.com"⟩ : Row), ⟨2, "ex2", "https://other.com"⟩].erase r :=
  ⟨by decide, by decide,
    (C9_delete_frame
      ⟨[⟨1, "ex1", "https://example.com"⟩, ⟨2, "ex2", "https://other.com"⟩]⟩
      ⟨[⟨2, "ex2", "https://other.com"⟩]⟩ "ex1" healthy (by decide) (by decide)).imp
      fun _ hr => ⟨hr.1, hr.2.1, hr.2.2.1⟩⟩

/-- C10: for every store, url `u` and alias `a` for which `SaveURL(u, a)`
returns id `i` and no error, the resulting table is the prior table plus the
one record `(i, a, u)`: it is one record longer, `i` was the id of no prior
record, every prior record is still there unchanged, every record of the new
table is a prior one or the new one, and `GetURL(b)` for every `b ≠ a`
returns what it returned before. -/
theorem C10_save_frame (s s1 : Storage) (u a : String) (f : Faults) (i : Int)
    (h : SaveURL s u a f = (s1, i, none)) :
    s1.db = s.db ++ [⟨i, a, u⟩] ∧ s1.db.length = s.db.length + 1 ∧
      (∀ r ∈ s.db, r.id ≠ i) ∧ (∀ r ∈ s.db, r ∈ s1.db) ∧
      (∀ r ∈ s1.db, r ∈ s.db ∨ r = ⟨i, a, u⟩) ∧
      ∀ b, b ≠ a → ∀ g, GetURL s1 b g = GetURL s b g := by
  obtain ⟨_, hi, hs1⟩ := SaveURL_ok h
  subst hs1
  refine ⟨rfl, by simp, ?_, ?_, ?_, ?_⟩
  · intro r hr hri
    have := newRowid_gt r hr
    omega
  · intro r hr
    exact List.mem_append_left _ hr
  · intro r hr
    rcases List.mem_append.1 hr with h1 | h1
    · exact Or.inl h1
    · exact Or.inr (by simpa using h1)
  · intro b hb g
    exact GetURL_congr g (querySelect_append_other hb)

theorem C10_save_frame_witness :
    SaveURL ⟨[⟨1, "ex1", "https://example.com"⟩]⟩ "https://other.com" "ex2" healthy
        = (⟨[⟨1, "ex1", "https://example.com"⟩, ⟨2, "ex2", "https://other.com"⟩]⟩, 2, none) ∧
      ∀ r ∈ [(⟨1, "ex1", "https://example.com"⟩ : Row)], r.id ≠ 2 :=
  ⟨by decide,
    (C10_save_frame ⟨[⟨1, "ex1", "https://example.com"⟩]⟩
      ⟨[⟨1, "ex1", "https://example.com"⟩, ⟨2, "ex2", "https://other.com"⟩]⟩
      "https://other.com" "ex2" healthy 2 (by decide)).2.2.1⟩

/-! ## Sequences of calls from the empty store -/

/-- `New` on a location without table `url` hands back the empty store. -/
theorem New_empty {f : Faults} {s0 : Storage} (h : New none f = (some s0, none)) :
    s0 = ⟨[]⟩ := by
  unfold New at h
  cases hp : f.sqlOpen with
  | some e => simp [hp] at h
  | none =>
    cases hq : f.prepare with
    | some e => simp [hp, hq] at h
    | none =>
      cases he : f.exec with
      | some e => simp [hp, hq, he] at h
      | none =>
        simp only [hp, hq, he, Prod.mk.injEq, Option.some.injEq, and_true] at h
        exact h.symm

theorem aliasUnique_append {t : List Row} {a u : String} {i : Int} (hu : aliasUnique t)
    (h : ∀ r ∈ t, r.alias_ ≠ a) : aliasUnique (t ++ [⟨i, a, u⟩]) := by
  unfold aliasUnique at *
  rw [List.map_append, List.nodup_append]
  refine ⟨hu, by simp, ?_⟩
  intro x hx hx1
  obtain ⟨r, hr, hrx⟩ := List.mem_map.1 hx
  have hxa : x = a := by simpa using hx1
  exact h r hr (hrx.trans hxa)

theorem aliasUnique_filter {t : List Row} (p : Row → Bool) (hu : aliasUnique t) :
    aliasUnique (t.filter p) := by
  unfold aliasUnique at *
  exact hu.sublist ((List.filter_sublist t).map Row.alias_)

/-- Every call keeps the aliases of the table distinct. -/
theorem step_aliasUnique (s : Storage) (c : Call) (hu : aliasUnique s.db) :
    aliasUnique (step s c).1.db := by
  cases c with
  | SaveURL u a f =>
    show aliasUnique (SaveURL s u a f).1.db
    rcases SaveURL_db s u a f with h | ⟨habs, h⟩
    · rw [h]; exact hu
    · rw [h]; exact aliasUnique_append hu habs
  | GetURL a f => exact hu
  | DeleteURL a f =>
    show aliasUnique (DeleteURL s a f).1.db
    rcases DeleteURL_db s a f with h | h
    · rw [h]; exact hu
    · rw [h]; exact aliasUnique_filter _ hu

theorem run_aliasUnique (calls : List Call) :
    ∀ s : Storage, aliasUnique s.db → aliasUnique (run s calls).1.db := by
  induction calls with
  | nil => intro s hu; exact hu
  | cons c cs ih =>
    intro s hu
    exact ih (step s c).1 (step_aliasUnique s c hu)

/-- C6: alias uniqueness is an invariant of the store: `New` on a location
without table `url` hands back the empty store, and after any finite
sequence of `SaveURL`, `GetURL` and `DeleteURL` calls on it, whatever they
return and whatever the faults, no two records have the same alias. -/
theorem C6_alias_unique (f : Faults) (s0 : Storage) (calls : List Call)
    (h : New none f = (some s0, none)) :
    s0.db = [] ∧ aliasUnique (run s0 calls).1.db := by
  have h0 := New_empty h
  subst h0
  exact ⟨rfl, run_aliasUnique calls ⟨[]⟩ (by simp [aliasUnique])⟩

theorem C6_alias_unique_witness :
    New none healthy = (some ⟨[]⟩, none) ∧
      aliasUnique (run ⟨[]⟩ [.SaveURL "https://example.com" "ex1" healthy,
        .SaveURL "https://other.com" "ex1" healthy, .GetURL "ex1" healthy,
        .DeleteURL "ex2" healthy, .SaveURL "https://other.com" "ex2" healthy]).1.db :=
  ⟨by decide, (C6_alias_unique healthy ⟨[]⟩ _ (by decide)).2⟩

theorem newRowid_pos {t : List Row} (h : ∀ r ∈ t, 0 < r.id) : 0 < newRowid t := by
  cases t with
  | nil => decide
  | cons x xs =>
    have h1 := h x (List.mem_cons_self _ _)
    have h2 := newRowid_gt (t := x :: xs) x (List.mem_cons_self _ _)
    omega

/-- The reply of a `SaveURL` call that returned no error. -/
theorem SaveURL_reply {s : Storage} {u a : String} {f : Faults}
    (h : (SaveURL s u a f).2.2 = none) :
    (∀ r ∈ s.db, r.alias_ ≠ a) ∧ (SaveURL s u a f).2.1 = newRowid s.db ∧
      (SaveURL s u a f).1 = ⟨s.db ++ [⟨newRowid s.db, a, u⟩]⟩ := by
  have heq : SaveURL s u a f = ((SaveURL s u a f).1, (SaveURL s u a f).2.1, none) := by
    rw [← h]
  obtain ⟨h1, h2, h3⟩ := SaveURL_ok heq
  refine ⟨h1, h2, ?_⟩
  rw [h3, h2]

/-- Every call keeps the ids of the table positive. -/
theorem step_ids_pos (s : Storage) (c : Call) (hp : ∀ r ∈ s.db, 0 < r.id) :
    ∀ r ∈ (step s c).1.db, 0 < r.id := by
  cases c with
  | SaveURL u a f =>
    show ∀ r ∈ (SaveURL s u a f).1.db, 0 < r.id
    rcases SaveURL_db s u a f with h | ⟨_, h⟩
    · rw [h]; exact hp
    · rw [h]
      intro r hr
      rcases List.mem_append.1 hr with h1 | h1
      · exact hp r h1
      · have hr1 : r = ⟨newRowid s.db, a, u⟩ := by simpa using h1
        rw [hr1]
        exact newRowid_pos hp
  | GetURL a f => exact hp
  | DeleteURL a f =>
    show ∀ r ∈ (DeleteURL s a f).1.db, 0 < r.id
    rcases DeleteURL_db s a f with h | h
    · rw [h]; exact hp
    · rw [h]
      intro r hr
      exact hp r (List.mem_filter.1 hr).1

theorem savedIds_cons_mem {r : Reply} {rs : List Reply} {i : Int}
    (h : i ∈ savedIds (r :: rs)) :
    (∃ j, r = .SaveURL j none ∧ i = j) ∨ i ∈ savedIds rs := by
  cases r with
  | SaveURL j err =>
    cases err with
    | none =>
      rcases List.mem_cons.1 h with h1 | h1
      · exact Or.inl ⟨j, rfl, h1⟩
      · exact Or.inr h1
    | some e => exact Or.inr h
  | GetURL url err => exact Or.inr h
  | DeleteURL err => exact Or.inr h

/-- The reply `SaveURL j none` comes from a `SaveURL` call that returned `j`
and no error. -/
theorem step_reply_save {s : Storage} {c : Call} {j : Int}
    (h : (step s c).2 = .SaveURL j none) :
    j = newRowid s.db ∧ ∃ a u, (step s c).1 = ⟨s.db ++ [⟨j, a, u⟩]⟩ := by
  cases c with
  | SaveURL u a f =>
    have h1 : Reply.SaveURL (SaveURL s u a f).2.1 (SaveURL s u a f).2.2 = .SaveURL j none := h
    injection h1 with hid herr
    obtain ⟨_, h2, h3⟩ := SaveURL_reply herr
    have hj : j = newRowid s.db := by rw [← hid, h2]
    refine ⟨hj, a, u, ?_⟩
    show (SaveURL s u a f).1 = _
    rw [h3, hj]
  | GetURL a f => cases h
  | DeleteURL a f => cases h

theorem run_savedIds_pos (calls : List Call) :
    ∀ s : Storage, (∀ r ∈ s.db, 0 < r.id) → ∀ i ∈ savedIds (run s calls).2, 0 < i := by
  induction calls with
  | nil => intro s _ i hi; simp [run, savedIds] at hi
  | cons c cs ih =>
    intro s hp i hi
    have hi1 : i ∈ savedIds ((step s c).2 :: (run (step s c).1 cs).2) := hi
    rcases savedIds_cons_mem hi1 with ⟨j, hj, hij⟩ | h1
    · rw [hij, (step_reply_save hj).1]
      exact newRowid_pos hp
    · exact ih _ (step_ids_pos s c hp) i h1

/-- A call that is not a `DeleteURL` removes no row. -/
theorem step_subset {s : Storage} {c : Call} (hc : c.isDelete = false) :
    ∀ r ∈ s.db, r ∈ (step s c).1.db := by
  cases c with
  | SaveURL u a f =>
    show ∀ r ∈ s.db, r ∈ (SaveURL s u a f).1.db
    rcases SaveURL_db s u a f with h | ⟨_, h⟩
    · rw [h]; exact fun r hr => hr
    · rw [h]; exact fun r hr => List.mem_append_left _ hr
  | GetURL a f => exact fun r hr => hr
  | DeleteURL a f => cases hc

theorem keepsRows_cons {s : Storage} {c : Call} {cs : List Call} :
    keepsRows s (c :: cs) = true ↔
      (∀ r ∈ s.db, r ∈ (step s c).1.db) ∧ keepsRows (step s c).1 cs = true := by
  simp [keepsRows, List.all_eq_true]

/-- A sequence without a `DeleteURL` removes no row. -/
theorem keepsRows_of_noDelete (calls : List Call) :
    ∀ s : Storage, (∀ c ∈ calls, c.isDelete = false) → keepsRows s calls = true := by
  induction calls with
  | nil => intro s _; rfl
  | cons c cs ih =>
    intro s hnd
    exact keepsRows_cons.2 ⟨step_subset (hnd c (List.mem_cons_self _ _)),
      ih _ fun x hx => hnd x (List.mem_cons_of_mem _ hx)⟩

/-- A `DeleteURL` that finds no row of the alias, or fails before its
statement runs, removes no row. -/
theorem step_delete_keeps {s : Storage} {a : String} {f : Faults}
    (h : (∀ r ∈ s.db, r.alias_ ≠ a) ∨ f.prepare ≠ none ∨ f.exec ≠ none) :
    ∀ r ∈ s.db, r ∈ (step s (.DeleteURL a f)).1.db := by
  have hs : (DeleteURL s a f).1 = s := by
    rcases h with h | h | h
    · rcases DeleteURL_db s a f with h1 | h1
      · exact h1
      · rw [h1, filter_absent h]
    · unfold DeleteURL
      cases hp : f.prepare with
      | none => exact absurd hp h
      | some e => rfl
    · unfold DeleteURL
      cases hp : f.prepare with
      | some e => rfl
      | none =>
        cases he : f.exec with
        | none => exact absurd he h
        | some e => rfl
  show ∀ r ∈ s.db, r ∈ (DeleteURL s a f).1.db
  rw [hs]
  exact fun r hr => hr

theorem run_ids_pos (calls : List Call) :
    ∀ s : Storage, (∀ r ∈ s.db, 0 < r.id) → ∀ r ∈ (run s calls).1.db, 0 < r.id := by
  induction calls with
  | nil => intro s hp; exact hp
  | cons c cs ih =>
    intro s hp
    exact ih (step s c).1 (step_ids_pos s c hp)

/-- When no call of the sequence removes a row, every id returned by a
successful `SaveURL` is above every id in the table at the start, and the
ids returned increase. -/
theorem run_savedIds_increasing (calls : List Call) :
    ∀ s : Storage, keepsRows s calls = true →
      (∀ j ∈ savedIds (run s calls).2, ∀ r ∈ s.db, r.id < j) ∧
        (savedIds (run s calls).2).Pairwise (fun i j => i < j) := by
  induction calls with
  | nil => intro s _; simp [run, savedIds]
  | cons c cs ih =>
    intro s hk
    obtain ⟨hc, hk1⟩ := keepsRows_cons.1 hk
    obtain ⟨ih1, ih2⟩ := ih (step s c).1 hk1
    have hrun : (run s (c :: cs)).2 = (step s c).2 :: (run (step s c).1 cs).2 := rfl
    rw [hrun]
    have hrest : ∀ j ∈ savedIds (run (step s c).1 cs).2, ∀ r ∈ s.db, r.id < j :=
      fun j hj r hr => ih1 j hj r (hc r hr)
    cases hrep : (step s c).2 with
    | SaveURL j err =>
      cases err with
      | none =>
        obtain ⟨hj, a, u, hs1⟩ := step_reply_save hrep
        have hsaved : savedIds (Reply.SaveURL j none :: (run (step s c).1 cs).2)
            = j :: savedIds (run (step s c).1 cs).2 := rfl
        rw [hsaved]
        constructor
        · intro k hk r hr
          rcases List.mem_cons.1 hk with h1 | h1
          · rw [h1, hj]; exact newRowid_gt r hr
          · exact hrest k h1 r hr
        · refine List.pairwise_cons.2 ⟨?_, ih2⟩
          intro k hk
          have hmem : (⟨j, a, u⟩ : Row) ∈ (step s c).1.db := by
            rw [hs1]; simp
          exact ih1 k hk _ hmem
      | some e => exact ⟨hrest, ih2⟩
    | GetURL url err => exact ⟨hrest, ih2⟩
    | DeleteURL err => exact ⟨hrest, ih2⟩

/-- C7, as the code has it: from the empty store handed back by `New`,
across any sequence of `SaveURL`, `GetURL` and `DeleteURL` calls, whatever
they return and whatever the faults, every id returned by a successful
`SaveURL` is positive; a successful `SaveURL` on the store any such sequence
leaves returns the new rowid, 1 for an empty table and otherwise one more
than the largest id stored, so an id above the id of every record stored at
the time of the call; and when no call of the sequence removes a record
(every `DeleteURL` in it finds no record of its alias or fails before its
statement runs) the ids returned by
successive successful `SaveURL` calls increase strictly.  A sequence without
`DeleteURL` is the special case `keepsRows_of_noDelete`. -/
theorem C7_ids_positive_increasing (f : Faults) (s0 : Storage) (calls : List Call)
    (h : New none f = (some s0, none)) :
    (∀ i ∈ savedIds (run s0 calls).2, 0 < i) ∧
      (∀ u a g, (SaveURL (run s0 calls).1 u a g).2.2 = none →
        (SaveURL (run s0 calls).1 u a g).2.1 = newRowid (run s0 calls).1.db ∧
          0 < (SaveURL (run s0 calls).1 u a g).2.1 ∧
          ∀ r ∈ (run s0 calls).1.db, r.id < (SaveURL (run s0 calls).1 u a g).2.1) ∧
      (keepsRows s0 calls = true →
        (savedIds (run s0 calls).2).Pairwise (fun i j => i < j)) := by
  have h0 := New_empty h
  subst h0
  refine ⟨run_savedIds_pos calls ⟨[]⟩ (by simp), ?_,
    fun hk => (run_savedIds_increasing calls ⟨[]⟩ hk).2⟩
  intro u a g hok
  obtain ⟨_, hid, _⟩ := SaveURL_reply hok
  rw [hid]
  exact ⟨rfl, newRowid_pos (run_ids_pos calls ⟨[]⟩ (by simp)), newRowid_gt⟩

theorem C7_ids_positive_increasing_witness :
    New none healthy = (some ⟨[]⟩, none) ∧
      keepsRows ⟨[]⟩ [.SaveURL "https://example.com" "ex1" healthy,
        .DeleteURL "ex9" healthy, .SaveURL "https://other.com" "ex2" healthy,
        .DeleteURL "ex1" ⟨none, some (.other "sql: database is closed"), none, none⟩,
        .SaveURL "https://third.com" "ex3" healthy] = true ∧
      savedIds (run ⟨[]⟩ [.SaveURL "https://example.com" "ex1" healthy,
        .DeleteURL "ex9" healthy, .SaveURL "https://other.com" "ex2" healthy,
        .DeleteURL "ex1" ⟨none, some (.other "sql: database is closed"), none, none⟩,
        .SaveURL "https://third.com" "ex3" healthy]).2 = [1, 2, 3] ∧
      (savedIds (run ⟨[]⟩ [.SaveURL "https://example.com" "ex1" healthy,
        .DeleteURL "ex9" healthy, .SaveURL "https://other.com" "ex2" healthy,
        .DeleteURL "ex1" ⟨none, some (.other "sql: database is closed"), none, none⟩,
        .SaveURL "https://third.com" "ex3" healthy]).2).Pairwise (fun i j => i < j) :=
  ⟨by decide, by decide, by decide,
    (C7_ids_positive_increasing healthy ⟨[]⟩ _ (by decide)).2.2 (by decide)⟩

/-- C7 as stated fails: after two saves and the deletion of both records the
next save gets id 1 again, below the id 2 returned before it. -/
theorem C7_ids_not_monotone :
    New none healthy = (some ⟨[]⟩, none) ∧
      savedIds (run ⟨[]⟩ [.SaveURL "https://example.com" "ex1" healthy,
        .SaveURL "https://other.com" "ex2" healthy, .DeleteURL "ex2" healthy,
        .DeleteURL "ex1" healthy, .SaveURL "https://third.com" "ex3" healthy]).2 = [1, 2, 1] ∧
      ¬ (savedIds (run ⟨[]⟩ [.SaveURL "https://example.com" "ex1" healthy,
        .SaveURL "https://other.com" "ex2" healthy, .DeleteURL "ex2" healthy,
        .DeleteURL "ex1" healthy, .SaveURL "https://third.com" "ex3" healthy]).2).Pairwise
          (fun i j => i ≤ j) := by
  refine ⟨by decide, by decide, ?_⟩
  have hids : savedIds (run ⟨[]⟩ [.SaveURL "https://example.com" "ex1" healthy,
        .SaveURL "https://other.com" "ex2" healthy, .DeleteURL "ex2" healthy,
        .DeleteURL "ex1" healthy, .SaveURL "https://third.com" "ex3" healthy]).2 = [1, 2, 1] := by
    decide
  rw [hids]
  decide

/-! ## Error messages -/

/-- The message of `fmt.Errorf` with a format that starts with the operation
begins with the operation. -/
theorem HasPrefix_Errorf (m : SentinelText) (operation rest : String) (err : GoError) :
    HasPrefix ((GoError.Errorf (operation ++ rest) err).Error m) operation = true := by
  unfold HasPrefix
  rw [List.isPrefixOf_iff_prefix]
  simp only [GoError.Error, String.data_append, List.append_assoc]
  exact List.prefix_append _ _

/-- No text begins with both operation names. -/
theorem not_both_prefixes (text : String) :
    ¬ (HasPrefix text "storage.sqlite.GetURL" = true ∧
      HasPrefix text "storage.sqlite.DeleteURL" = true) := by
  unfold HasPrefix
  rw [List.isPrefixOf_iff_prefix, List.isPrefixOf_iff_prefix]
  rintro ⟨h1, h2⟩
  have h3 : "storage.sqlite.GetURL".data <+: "storage.sqlite.DeleteURL".data :=
    List.prefix_of_prefix_length_le h1 h2 (by decide)
  revert h3
  decide

/-- C8, as the code has it: every error returned by `New` and by `SaveURL`
has a message that begins with the operation name, on every failure path,
the already-exists path included; every error returned by `GetURL` or
`DeleteURL` is either `storage.ErrURLNotFound` itself, returned bare when no
record has the alias, or has a message that begins with the operation
name. -/
theorem C8_errors_annotated (m : SentinelText) (file : Option (List Row)) (s : Storage)
    (u a : String) (f : Faults) (err : GoError) :
    ((New file f).2 = some err → HasPrefix (err.Error m) "storage.sqlite.New" = true) ∧
      ((SaveURL s u a f).2.2 = some err →
        HasPrefix (err.Error m) "storage.sqlite.SaveURL" = true) ∧
      ((GetURL s a f).2 = some err →
        (err = .ErrURLNotFound ∧ ∀ r ∈ s.db, r.alias_ ≠ a) ∨
          HasPrefix (err.Error m) "storage.sqlite.GetURL" = true) ∧
      ((DeleteURL s a f).2 = some err →
        (err = .ErrURLNotFound ∧ ∀ r ∈ s.db, r.alias_ ≠ a) ∨
          HasPrefix (err.Error m) "storage.sqlite.DeleteURL" = true) := by
  refine ⟨?_, ?_, ?_, ?_⟩
  · intro h
    unfold New at h
    cases hp : f.sqlOpen with
    | some e =>
      simp only [hp, Option.some.injEq] at h
      subst h
      exact HasPrefix_Errorf m _ _ _
    | none =>
      cases hq : f.prepare with
      | some e =>
        simp only [hp, hq, Option.some.injEq] at h
        subst h
        exact HasPrefix_Errorf m _ _ _
      | none =>
        cases he : f.exec with
        | some e =>
          simp only [hp, hq, he, Option.some.injEq] at h
          subst h
          exact HasPrefix_Errorf m _ _ _
        | none => simp [hp, hq, he] at h
  · intro h
    unfold SaveURL at h
    cases hp : f.prepare with
    | some e =>
      simp only [hp, Option.some.injEq] at h
      subst h
      exact HasPrefix_Errorf m _ _ _
    | none =>
      simp only [hp] at h
      split at h
      · split at h
        · simp only [Option.some.injEq] at h
          subst h
          exact HasPrefix_Errorf m _ _ _
        · simp only [Option.some.injEq] at h
          subst h
          exact HasPrefix_Errorf m _ _ _
      · cases hr : f.result with
        | some e =>
          simp only [hr, Option.some.injEq] at h
          subst h
          exact HasPrefix_Errorf m _ _ _
        | none => simp [hr] at h
  · intro h
    unfold GetURL at h
    cases hp : f.prepare with
    | some e =>
      simp only [hp, Option.some.injEq] at h
      subst h
      exact Or.inr (HasPrefix_Errorf m _ _ _)
    | none =>
      cases he : f.exec with
      | some e =>
        have hno : (GoError.driver e).Is .ErrNoRows = false := by cases e <;> rfl
        simp only [hp, he, hno, Bool.false_eq_true, if_false, Option.some.injEq] at h
        subst h
        exact Or.inr (HasPrefix_Errorf m _ _ _)
      | none =>
        by_cases hany : ∃ r ∈ s.db, r.alias_ = a
        · obtain ⟨r, _, _, hq⟩ := querySelect_present hany
          simp [hp, he, hq] at h
        · have habs : ∀ r ∈ s.db, r.alias_ ≠ a := fun r hr hra => hany ⟨r, hr, hra⟩
          have hg := GetURL_healthy_absent habs
          unfold GetURL at hg
          simp only [healthy] at hg
          simp only [hp, he, hg, Option.some.injEq] at h
          exact Or.inl ⟨h.symm, habs⟩
  · intro h
    unfold DeleteURL execDelete at h
    cases hp : f.prepare with
    | some e =>
      simp only [hp, Option.some.injEq] at h
      subst h
      exact Or.inr (HasPrefix_Errorf m _ _ _)
    | none =>
      cases he : f.exec with
      | some e =>
        simp only [hp, he, Option.some.injEq] at h
        subst h
        exact Or.inr (HasPrefix_Errorf m _ _ _)
      | none =>
        cases hr : f.result with
        | some e =>
          simp only [hp, he, hr, Option.some.injEq] at h
          subst h
          exact Or.inr (HasPrefix_Errorf m _ _ _)
        | none =>
          simp only [hp, he, hr] at h
          by_cases hc : s.db.countP (fun r => r.alias_ == a) = 0
          · simp only [hc, beq_self_eq_true, if_true, Option.some.injEq] at h
            exact Or.inl ⟨h.symm, countP_alias_eq_zero.1 hc⟩
          · simp [hc] at h

theorem C8_errors_annotated_witness :
    (SaveURL ⟨[⟨1, "ex1", "https://example.com"⟩]⟩ "https://other.com" "ex1" healthy).2.2
        = some (.Errorf "storage.sqlite.SaveURL: " .ErrURLExists) ∧
      HasPrefix ((GoError.Errorf "storage.sqlite.SaveURL: " .ErrURLExists).Error
        ⟨"url not found", "url exists"⟩) "storage.sqlite.SaveURL" = true :=
  ⟨by decide,
    (C8_errors_annotated ⟨"url not found", "url exists"⟩ none
      ⟨[⟨1, "ex1", "https://example.com"⟩]⟩ "https://other.com" "ex1" healthy
      (.Errorf "storage.sqlite.SaveURL: " .ErrURLExists)).2.1 (by decide)⟩

/-- C8 as stated fails on the not-found paths: on the empty store `GetURL`
and `DeleteURL` both return `storage.ErrURLNotFound` itself, and whatever the
text of that one error is, it does not begin with both operation names. -/
theorem C8_not_found_bare :
    GetURL ⟨[]⟩ "ex1" healthy = ("", some .ErrURLNotFound) ∧
      DeleteURL ⟨[]⟩ "ex1" healthy = (⟨[]⟩, some .ErrURLNotFound) ∧
      ¬ ∃ m : SentinelText,
        (∀ err, (GetURL ⟨[]⟩ "ex1" healthy).2 = some err →
          HasPrefix (err.Error m) "storage.sqlite.GetURL" = true) ∧
        (∀ err, (DeleteURL ⟨[]⟩ "ex1" healthy).2 = some err →
          HasPrefix (err.Error m) "storage.sqlite.DeleteURL" = true) := by
  refine ⟨by decide, by decide, ?_⟩
  rintro ⟨m, hg, hd⟩
  exact not_both_prefixes m.ErrURLNotFound
    ⟨hg .ErrURLNotFound (by decide), hd .ErrURLNotFound (by decide)⟩

end sqlite
